import Mathlib

/-!
# Verification of the wolgate Wake-on-LAN core (package `wol`)

A shallow embedding of the `wol` Go package: Go strings are modelled as
`List Char` (byte-index and character-index coincide on the ASCII inputs the
MAC grammar can accept; non-ASCII characters are rejected by the format check
under either reading), Go `[]byte` as `List Nat` with values below 256, and
fallible functions as `Except WolError`.  The network side effects of
`sendPacket` / `SendRepeat` are made explicit: the OS interface table becomes
a `NetEnv` value and each send attempt is recorded as a `SendEvent`.
-/

namespace Wolgate

/-- The character class `[0-9A-Fa-f]` of the MAC pattern `macRegex`. -/
def isHexChar (c : Char) : Bool :=
  (48 ≤ c.toNat && c.toNat ≤ 57) || (97 ≤ c.toNat && c.toNat ≤ 102) ||
    (65 ≤ c.toNat && c.toNat ≤ 70)

/-- Characters removed by Go `strings.TrimSpace` (the `unicode.IsSpace` set:
`\t \n \v \f \r` and space in ASCII, NEL, NBSP, and the Unicode
`White_Space` code points outside Latin-1). -/
def goIsSpace (c : Char) : Bool :=
  c.toNat == 9 || c.toNat == 10 || c.toNat == 11 || c.toNat == 12 ||
    c.toNat == 13 || c.toNat == 32 || c.toNat == 0x85 || c.toNat == 0xA0 ||
    c.toNat == 0x1680 || (0x2000 ≤ c.toNat && c.toNat ≤ 0x200A) ||
    c.toNat == 0x2028 || c.toNat == 0x2029 || c.toNat == 0x202F ||
    c.toNat == 0x205F || c.toNat == 0x3000

/-- Go `strings.TrimSpace`: drop leading and trailing white space. -/
def goTrimSpace (s : List Char) : List Char :=
  ((s.dropWhile goIsSpace).reverse.dropWhile goIsSpace).reverse

/-- The anchored pattern `^([0-9A-Fa-f]{2}:){5}[0-9A-Fa-f]{2}$` of `macRegex`,
as a checker: `matchGroups n s` holds iff `s` is `n` groups `hh:` followed by
one final group `hh`. -/
def matchGroups : Nat → List Char → Bool
  | 0, [a, b] => isHexChar a && isHexChar b
  | n + 1, a :: b :: c :: rest =>
      isHexChar a && isHexChar b && (c == ':') && matchGroups n rest
  | _, _ => false

/-- `macRegex.MatchString`: the whole string is six 2-hex-digit groups
separated by colons. -/
def macRegexMatch (s : List Char) : Bool :=
  matchGroups 5 s

/-- Loop body of `insertColons`: `i` is the position of the next character
(Go iterates byte offsets; on the ASCII strings relevant here these equal
character positions, and any non-ASCII character makes `macRegex` fail under
either reading). -/
def insertColonsAux (n : Nat) : Nat → List Char → List Char
  | _, [] => []
  | i, c :: rest =>
      (if 0 < i && i % n == 0 then [':', c] else [c]) ++
        insertColonsAux n (i + 1) rest

/-- `insertColons` from the source: inserts a colon every `n` characters. -/
def insertColons (s : List Char) (n : Nat) : List Char :=
  insertColonsAux n 0 s

/-- `encoding/hex.fromHexChar`: value of one hex digit. -/
def hexDigitVal (c : Char) : Option Nat :=
  if 48 ≤ c.toNat && c.toNat ≤ 57 then some (c.toNat - 48)
  else if 97 ≤ c.toNat && c.toNat ≤ 102 then some (c.toNat - 97 + 10)
  else if 65 ≤ c.toNat && c.toNat ≤ 70 then some (c.toNat - 65 + 10)
  else none

/-- `encoding/hex.DecodeString`: decode pairs of hex digits into bytes;
fails on odd length or a non-hex character. -/
def hexDecode : List Char → Option (List Nat)
  | [] => some []
  | [_] => none
  | a :: b :: rest =>
      match hexDigitVal a, hexDigitVal b, hexDecode rest with
      | some x, some y, some bs => some ((16 * x + y) :: bs)
      | _, _, _ => none

/-- The error values produced by the `wol` package (each constructor models
one `fmt.Errorf` site and carries the text interpolated there). -/
inductive WolError where
  /-- `"invalid MAC address format: %s"` — carries the string `mac` held at
  that point of `parseMAC` / `ValidateMAC`. -/
  | invalidFormat (text : List Char)
  /-- `"failed to parse MAC address"` (the `hex.DecodeString` failure arm). -/
  | hexError (text : List Char)
  /-- `"invalid broadcast address: %s"` from `NewSender`. -/
  | invalidBroadcast (text : List Char)
  /-- `"interface %s not found"` from `sendPacket`. -/
  | ifaceNotFound (name : List Char)
  /-- `"no suitable IPv4 address found on interface %s"` from `sendPacket`. -/
  | noUsableAddress (name : List Char)
  deriving DecidableEq

/-- The separator rewriting shared verbatim by `parseMAC` and `ValidateMAC`
(both inline the same lines): a string containing a dot has all dots removed
and a colon re-inserted every 2 characters; otherwise dashes are replaced by
colons (`strings.ReplaceAll`). -/
def rewriteSeps (mac : List Char) : List Char :=
  if mac.contains '.' then
    insertColons (mac.filter (fun c => c != '.')) 2
  else
    mac.map (fun c => if c = '-' then ':' else c)

/-- `parseMAC` from the source: trim, rewrite separators, check `macRegex`,
then hex-decode the digits with the colons removed. -/
def parseMAC (mac : List Char) : Except WolError (List Nat) :=
  let mac₁ := goTrimSpace mac
  let mac₂ := rewriteSeps mac₁
  if macRegexMatch mac₂ then
    let digits := mac₂.filter (fun c => c != ':')
    match hexDecode digits with
    | some bs => .ok bs
    | none => .error (.hexError digits)
  else
    .error (.invalidFormat mac₂)

/-- `ValidateMAC` from the source: the same trimming, separator rewriting and
pattern check as `parseMAC`, without decoding bytes. -/
def ValidateMAC (mac : List Char) : Except WolError Unit :=
  let mac₁ := goTrimSpace mac
  let mac₂ := rewriteSeps mac₁
  if macRegexMatch mac₂ then .ok () else .error (.invalidFormat mac₂)

/-- Go `copy(buf[pos:], src)` on byte slices: overwrite `buf` with the bytes
of `src` starting at offset `pos`, stopping at whichever of the two slices
ends first; the rest of `buf` is unchanged. -/
def goCopyAt : List Nat → Nat → List Nat → List Nat
  | [], _, _ => []
  | buf, 0, [] => buf
  | _ :: buf, 0, s :: src => s :: goCopyAt buf 0 src
  | b :: buf, pos + 1, src => b :: goCopyAt buf pos src

/-- `constructMagicPacket` from the source: a 102-byte buffer, indices 0–5
set to `0xFF`, then 16 copies of `mac` written at offsets `6 + i*6`. -/
def constructMagicPacket (mac : List Nat) : List Nat :=
  let packet := List.replicate (6 + 16 * 6) 0
  let packet := (List.range 6).foldl (fun p i => p.set i 0xFF) packet
  (List.range 16).foldl (fun p i => goCopyAt p (6 + i * 6) mac) packet

/-- One digit of `fmt.Sprintf("%02X", b)`: the uppercase hex digit of a
value below 16. -/
def upperHexDigit (v : Nat) : Char :=
  if v < 10 then Char.ofNat (48 + v) else Char.ofNat (55 + v)

/-- `fmt.Sprintf("%02X", b)` for a byte value `b < 256`: two uppercase hex
digits. -/
def sprintf02X (b : Nat) : List Char :=
  [upperHexDigit (b / 16), upperHexDigit (b % 16)]

/-- `strings.Join(parts, ":")`. -/
def joinColon : List (List Char) → List Char
  | [] => []
  | [p] => p
  | p :: ps => p ++ ':' :: joinColon ps

/-- `NormalizeMAC` from the source: parse, then re-render each byte with
`%02X` and join with colons. -/
def NormalizeMAC (mac : List Char) : Except WolError (List Char) :=
  match parseMAC mac with
  | .error e => .error e
  | .ok bs => .ok (joinColon (bs.map sprintf02X))

/-- ASCII uppercasing of one character (`strings.ToUpper` restricted to the
ASCII texts the MAC grammar accepts). -/
def goToUpper (c : Char) : Char :=
  if 97 ≤ c.toNat && c.toNat ≤ 122 then Char.ofNat (c.toNat - 32) else c

/-- Spec-side renderer for stating C2: the digits `ds` written in groups of
`k` separated by `sep` (e.g. `grouped 2 ':' ds` is the colon form,
`grouped 2 '-' ds` the dash form, `grouped 4 '.' ds` the Cisco dot form). -/
def groupedAux (k : Nat) (sep : Char) : Nat → List Char → List Char
  | _, [] => []
  | i, c :: rest =>
      (if 0 < i && i % k == 0 then [sep, c] else [c]) ++
        groupedAux k sep (i + 1) rest

/-- See `groupedAux`. -/
def grouped (k : Nat) (sep : Char) (ds : List Char) : List Char :=
  groupedAux k sep 0 ds

/-- Spec-side checker for stating the amended C3: `n` groups `hh` followed by
a separator that may be `:` or `-` each time, ending in one final group. -/
def mixedGroups : Nat → List Char → Bool
  | 0, [a, b] => isHexChar a && isHexChar b
  | n + 1, a :: b :: c :: rest =>
      isHexChar a && isHexChar b && (c == ':' || c == '-') && mixedGroups n rest
  | _, _ => false

/-- `WOLSender` from the source: stored interface name and broadcast
address. -/
structure WOLSender where
  iface : List Char
  broadcast : List Char
  deriving DecidableEq

/-- One decimal octet of a dotted-quad address: 1–3 digits, no leading zero,
value at most 255. -/
def parseDecOctet (s : List Char) : Bool :=
  s ≠ [] && s.length ≤ 3 &&
    s.all (fun c => 48 ≤ c.toNat && c.toNat ≤ 57) &&
    !(s.length > 1 && s.head? == some '0') &&
    s.foldl (fun a c => 10 * a + (c.toNat - 48)) 0 ≤ 255

/-- Dotted-quad IPv4 syntax: four decimal octets separated by dots. -/
def ipv4Ok (s : List Char) : Bool :=
  let parts := s.splitOn '.'
  parts.length == 4 && parts.all parseDecOctet

/-- Modelled from the spec: the IP-syntax check `net.ParseIP(...) != nil`
used by `NewSender` (standard library, not part of this repository; the spec
asks for "a syntactically valid IP address (numeric dotted-quad or
equivalent)").  As in the library, the first `.` or `:` selects IPv4 or IPv6
parsing and a string with neither is rejected.  IPv6 texts are not exercised
by any claim and are modelled as rejected. -/
def netParseIPOk (s : List Char) : Bool :=
  match s.find? (fun c => c == '.' || c == ':') with
  | some c => c == '.' && ipv4Ok s
  | none => false

/-- `NewSender` from the source: default the broadcast address to
`255.255.255.255` when empty, validate it with `net.ParseIP`, and store the
interface name unchecked. -/
def NewSender (iface broadcast : List Char) : Except WolError WOLSender :=
  let broadcast₁ :=
    if broadcast = [] then "255.255.255.255".toList else broadcast
  if netParseIPOk broadcast₁ then .ok ⟨iface, broadcast₁⟩
  else .error (.invalidBroadcast broadcast₁)

/-- One address attached to a network interface, as `sendPacket` inspects
it: whether the `net.Addr` is a `*net.IPNet`, whether `IP.To4() != nil`,
whether `IP.IsLoopback()`, and its IP text. -/
structure IfaceAddr where
  isIPNet : Bool
  ipv4 : Bool
  loopback : Bool
  ip : List Char
  deriving DecidableEq

/-- The OS interface table as `sendPacket` consumes it:
`net.InterfaceByName` (`none` = interface not found) followed by
`iface.Addrs()` (the address list; its own error return is not modelled). -/
structure NetEnv where
  ifaces : List Char → Option (List IfaceAddr)

/-- The single UDP datagram a successful `sendPacket` writes: the local bind
address, the destination address and port, and the payload. -/
structure Datagram where
  localIP : List Char
  destIP : List Char
  destPort : Nat
  payload : List Nat
  deriving DecidableEq

/-- The selection test of `sendPacket`'s address loop:
`ok && ipnet.IP.To4() != nil && !ipnet.IP.IsLoopback()`. -/
def usableAddr (a : IfaceAddr) : Bool :=
  a.isIPNet && a.ipv4 && !a.loopback

/-- `sendPacket` from the source: with a named interface, look it up and
bind to the first usable IPv4 address; otherwise bind to the IPv4 wildcard.
Socket creation and the UDP write are modelled as succeeding; an error
return means no datagram is written. -/
def sendPacket (w : WOLSender) (env : NetEnv) (packet : List Nat) :
    Except WolError Datagram :=
  if w.iface ≠ [] then
    match env.ifaces w.iface with
    | none => .error (.ifaceNotFound w.iface)
    | some addrs =>
        match addrs.find? usableAddr with
        | none => .error (.noUsableAddress w.iface)
        | some a => .ok ⟨a.ip, w.broadcast, 9, packet⟩
  else
    .ok ⟨"0.0.0.0".toList, w.broadcast, 9, packet⟩

/-- Observable events of one `SendRepeat` call: one `w.sendPacket`
invocation with its outcome, or one `time.Sleep` of the given number of
milliseconds. -/
inductive SendEvent where
  | attempt (result : Option WolError)
  | sleep (ms : Nat)
  deriving DecidableEq

/-- The send loop of `SendRepeat` (`for i := 0; i < count; i++`), with the
i-th `w.sendPacket(packet)` call abstracted as `sp i packet` (its outcome
depends on the OS state at that moment).  Arguments: next call index, then
remaining iterations; returns the event trace and the error result. -/
def sendLoopAux (sp : Nat → List Nat → Option WolError) (packet : List Nat) :
    Nat → Nat → List SendEvent × Option WolError
  | _, 0 => ([], none)
  | i, 1 =>
      match sp i packet with
      | some e => ([.attempt (some e)], some e)
      | none => ([.attempt none], none)
  | i, rem + 2 =>
      match sp i packet with
      | some e => ([.attempt (some e)], some e)
      | none =>
          let r := sendLoopAux sp packet (i + 1) (rem + 1)
          (.attempt none :: .sleep 10 :: r.1, r.2)

/-- `SendRepeat` from the source: parse the MAC (propagating its error),
build one magic packet, then run the send loop `count` times (`count : Int`
since Go accepts any `int`; a non-positive count runs zero iterations). -/
def SendRepeat (sp : Nat → List Nat → Option WolError) (mac : List Char)
    (count : Int) : List SendEvent × Except WolError Unit :=
  match parseMAC mac with
  | .error e => ([], .error e)
  | .ok macBytes =>
      let magicPacket := constructMagicPacket macBytes
      let r := sendLoopAux sp magicPacket 0 count.toNat
      (r.1, match r.2 with | some e => .error e | none => .ok ())

/-- `Send` from the source: `SendRepeat` with count 1. -/
def Send (sp : Nat → List Nat → Option WolError) (mac : List Char) :
    List SendEvent × Except WolError Unit :=
  SendRepeat sp mac 1

/-- `sendPacket` of a fixed sender in a fixed environment, as the oracle
seen by the send loop. -/
def spOf (w : WOLSender) (env : NetEnv) :
    Nat → List Nat → Option WolError := fun _ pkt =>
  match sendPacket w env pkt with
  | .error e => some e
  | .ok _ => none

/-- Spec-side trace for stating C5: `n` successful attempts with a 10 ms
sleep between consecutive ones and none after the last. -/
def goodTrace : Nat → List SendEvent
  | 0 => []
  | 1 => [.attempt none]
  | n + 2 => .attempt none :: .sleep 10 :: goodTrace (n + 1)

/-- Spec-side trace for stating C5: `j` successful attempts each followed by
its 10 ms sleep (the prefix of a failing run). -/
def okSleepTrace : Nat → List SendEvent
  | 0 => []
  | j + 1 => .attempt none :: .sleep 10 :: okSleepTrace j

theorem goCopyAt_append (a : List Nat) :
    ∀ (b src : List Nat) (p : Nat),
      goCopyAt (a ++ b) (a.length + p) src = a ++ goCopyAt b p src := by
  induction a with
  | nil => intro b src p; simp
  | cons x a ih =>
      intro b src p
      have : (x :: a).length + p = (a.length + p) + 1 := by
        simp [Nat.succ_add, Nat.add_comm]
      rw [this]
      show x :: goCopyAt (a ++ b) (a.length + p) src = x :: (a ++ goCopyAt b p src)
      rw [ih]

theorem goCopyAt_zero_full (src : List Nat) :
    ∀ (x y : List Nat), x.length = src.length →
      goCopyAt (x ++ y) 0 src = src ++ y := by
  induction src with
  | nil =>
      intro x y h
      have hx : x = [] := List.eq_nil_of_length_eq_zero h
      subst hx
      cases y <;> rfl
  | cons s src ih =>
      intro x y h
      cases x with
      | nil => simp at h
      | cons a x =>
          show s :: goCopyAt (x ++ y) 0 src = s :: (src ++ y)
          rw [ih x y (by simpa using h)]

theorem flatten_replicate_length (mac : List Nat) :
    ∀ k, (List.replicate k mac).flatten.length = k * mac.length := by
  intro k
  induction k with
  | zero => simp
  | succ k ih =>
      simp [List.replicate_succ, ih, Nat.succ_mul, Nat.add_comm]

theorem constructMagicPacket_fold (mac : List Nat) (h6 : mac.length = 6) :
    ∀ k, k ≤ 16 →
      (List.range k).foldl (fun p i => goCopyAt p (6 + i * 6) mac)
          (List.replicate 6 0xFF ++ List.replicate 96 0) =
        List.replicate 6 0xFF ++ (List.replicate k mac).flatten ++
          List.replicate ((16 - k) * 6) 0 := by
  intro k
  induction k with
  | zero => intro _; rfl
  | succ k ih =>
      intro hk
      have hk' : k ≤ 16 := Nat.le_of_succ_le hk
      rw [List.range_succ, List.foldl_append, ih hk']
      have hsplit : (16 - k) * 6 = 6 + (16 - (k + 1)) * 6 := by omega
      rw [hsplit, List.replicate_add]
      have hlen :
          (List.replicate 6 0xFF ++ (List.replicate k mac).flatten).length
            = 6 + k * 6 := by
        simp [flatten_replicate_length, h6]
        omega
      calc goCopyAt
            ((List.replicate 6 0xFF ++ (List.replicate k mac).flatten) ++
              (List.replicate 6 0 ++ List.replicate ((16 - (k + 1)) * 6) 0))
            (6 + k * 6) mac
          = (List.replicate 6 0xFF ++ (List.replicate k mac).flatten) ++
              goCopyAt
                (List.replicate 6 0 ++ List.replicate ((16 - (k + 1)) * 6) 0)
                0 mac := by
            rw [← hlen]
            have := goCopyAt_append
              (List.replicate 6 0xFF ++ (List.replicate k mac).flatten)
              (List.replicate 6 0 ++ List.replicate ((16 - (k + 1)) * 6) 0)
              mac 0
            simpa using this
        _ = (List.replicate 6 0xFF ++ (List.replicate k mac).flatten) ++
              (mac ++ List.replicate ((16 - (k + 1)) * 6) 0) := by
            rw [goCopyAt_zero_full mac (List.replicate 6 0)
              (List.replicate ((16 - (k + 1)) * 6) 0) (by simp [h6])]
        _ = List.replicate 6 0xFF ++ (List.replicate (k + 1) mac).flatten ++
              List.replicate ((16 - (k + 1)) * 6) 0 := by
            rw [List.replicate_succ' k mac]
            simp

/-- Closed form of the magic packet for a 6-byte MAC: six `0xFF` bytes then
sixteen copies of the MAC. -/
theorem constructMagicPacket_eq (mac : List Nat) (h6 : mac.length = 6) :
    constructMagicPacket mac =
      List.replicate 6 0xFF ++ (List.replicate 16 mac).flatten := by
  show (List.range 16).foldl (fun p i => goCopyAt p (6 + i * 6) mac)
      ((List.range 6).foldl (fun p i => p.set i 0xFF)
        (List.replicate (6 + 16 * 6) 0)) = _
  have hinit : (List.range 6).foldl (fun p i => p.set i 0xFF)
      (List.replicate (6 + 16 * 6) 0) =
      List.replicate 6 0xFF ++ List.replicate 96 0 := by rfl
  rw [hinit, constructMagicPacket_fold mac h6 16 (by omega)]
  simp

theorem eq_of_length_six {α : Type} [Inhabited α] (l : List α) (h : l.length = 6) :
    l = [l[0]!, l[1]!, l[2]!, l[3]!, l[4]!, l[5]!] := by
  rcases l with _ | ⟨a, _ | ⟨b, _ | ⟨c, _ | ⟨d, _ | ⟨e, _ | ⟨f, _ | ⟨g, t⟩⟩⟩⟩⟩⟩⟩ <;>
    first
      | rfl
      | (exfalso; simp at h)

/-- C1: for every 6-byte MAC input, `constructMagicPacket` returns exactly
102 bytes; bytes 0–5 are all `0xFF`; and for every `i < 16` the bytes at
indices `6+6i` through `6+6i+5` are the 6 input bytes in order. -/
theorem C1_magic_packet_layout (mac : List Nat) (h6 : mac.length = 6) :
    (constructMagicPacket mac).length = 102 ∧
    (∀ i, i < 6 → (constructMagicPacket mac)[i]! = 0xFF) ∧
    (∀ i j, i < 16 → j < 6 →
      (constructMagicPacket mac)[6 + 6 * i + j]! = mac[j]!) := by
  rw [constructMagicPacket_eq mac h6]
  rw [eq_of_length_six mac h6]
  refine ⟨by rfl, ?_, ?_⟩
  · intro i hi
    interval_cases i <;> rfl
  · intro i j hi hj
    interval_cases i <;> interval_cases j <;> rfl

theorem hexChar_facts (c : Char) (h : isHexChar c = true) :
    goIsSpace c = false ∧ c ≠ '.' ∧ c ≠ '-' ∧ c ≠ ':' := by
  have ht : ((48 ≤ c.toNat ∧ c.toNat ≤ 57) ∨ (97 ≤ c.toNat ∧ c.toNat ≤ 102)) ∨
      (65 ≤ c.toNat ∧ c.toNat ≤ 70) := by
    simpa only [isHexChar, Bool.or_eq_true, Bool.and_eq_true,
      decide_eq_true_eq] using h
  refine ⟨?_, ?_, ?_, ?_⟩
  · simp only [goIsSpace, Bool.or_eq_false_iff, Bool.and_eq_false_iff,
      beq_eq_false_iff_ne, ne_eq, decide_eq_false_iff_not, not_le]
    omega
  · rintro rfl; revert ht; decide
  · rintro rfl; revert ht; decide
  · rintro rfl; revert ht; decide

theorem dropWhile_append_of_all {p : Char → Bool} (w x : List Char)
    (hw : ∀ c ∈ w, p c = true) :
    (w ++ x).dropWhile p = x.dropWhile p := by
  induction w with
  | nil => rfl
  | cons a w ih =>
      rw [List.cons_append, List.dropWhile_cons,
        if_pos (hw a (List.mem_cons_self a w))]
      exact ih fun c hc => hw c (List.mem_cons_of_mem a hc)

theorem dropWhile_eq_self_of_head {p : Char → Bool} (x : List Char)
    (hx : ∀ c, x.head? = some c → p c = false) : x.dropWhile p = x := by
  cases x with
  | nil => rfl
  | cons a l => rw [List.dropWhile_cons, if_neg (by simp [hx a rfl])]

theorem goTrimSpace_wrap (w1 w2 x : List Char)
    (hw1 : ∀ c ∈ w1, goIsSpace c = true) (hw2 : ∀ c ∈ w2, goIsSpace c = true)
    (hx : x ≠ [])
    (hh : ∀ c, x.head? = some c → goIsSpace c = false)
    (hl : ∀ c, x.getLast? = some c → goIsSpace c = false) :
    goTrimSpace (w1 ++ x ++ w2) = x := by
  unfold goTrimSpace
  rw [List.append_assoc, dropWhile_append_of_all w1 (x ++ w2) hw1]
  have h1 : (x ++ w2).dropWhile goIsSpace = x ++ w2 := by
    apply dropWhile_eq_self_of_head
    intro c hc
    rw [List.head?_append] at hc
    cases hx' : x.head? with
    | none =>
        cases x with
        | nil => exact absurd rfl hx
        | cons a l => simp at hx'
    | some d =>
        rw [hx'] at hc
        simp only [Option.or_some, Option.some.injEq] at hc
        subst hc
        exact hh d hx'
  rw [h1, List.reverse_append,
    dropWhile_append_of_all w2.reverse x.reverse
      (fun c hc => hw2 c (List.mem_reverse.mp hc))]
  have h2 : x.reverse.dropWhile goIsSpace = x.reverse := by
    apply dropWhile_eq_self_of_head
    intro c hc
    rw [List.head?_reverse] at hc
    exact hl c hc
  rw [h2, List.reverse_reverse]

theorem goTrimSpace_of_no_space (x : List Char)
    (h : ∀ c ∈ x, goIsSpace c = false) : goTrimSpace x = x := by
  unfold goTrimSpace
  have h1 : x.dropWhile goIsSpace = x := by
    apply dropWhile_eq_self_of_head
    intro c hc
    exact h c (List.mem_of_mem_head? hc)
  rw [h1]
  have h2 : x.reverse.dropWhile goIsSpace = x.reverse := by
    apply dropWhile_eq_self_of_head
    intro c hc
    exact h c (by
      have := List.mem_of_mem_head? hc
      exact List.mem_reverse.mp this)
  rw [h2, List.reverse_reverse]

theorem contains_eq_false_of_ne (l : List Char) (a : Char)
    (h : ∀ c ∈ l, c ≠ a) : l.contains a = false := by
  induction l with
  | nil => rfl
  | cons x l ih =>
      rw [List.contains_cons]
      have hx : (a == x) = false :=
        beq_eq_false_iff_ne.mpr fun e => (h x (List.mem_cons_self x l)) e.symm
      rw [hx, Bool.false_or]
      exact ih fun c hc => h c (List.mem_cons_of_mem x hc)

theorem map_dash_eq_self (l : List Char) (h : ∀ c ∈ l, c ≠ '-') :
    l.map (fun c => if c = '-' then ':' else c) = l := by
  induction l with
  | nil => rfl
  | cons x l ih =>
      rw [List.map_cons, if_neg (h x (List.mem_cons_self x l)),
        ih fun c hc => h c (List.mem_cons_of_mem x hc)]

theorem rewriteSeps_of_plain (l : List Char)
    (hdot : ∀ c ∈ l, c ≠ '.') (hdash : ∀ c ∈ l, c ≠ '-') :
    rewriteSeps l = l := by
  unfold rewriteSeps
  rw [contains_eq_false_of_ne l '.' hdot]
  simpa using map_dash_eq_self l hdash

theorem matchGroups_nil (n : Nat) : matchGroups n [] = false := by
  cases n <;> rfl

theorem matchGroups_single (n : Nat) (a : Char) :
    matchGroups n [a] = false := by
  cases n <;> rfl

theorem insertColonsAux_congr_idx :
    ∀ (l : List Char) (i j : Nat), 0 < i → 0 < j → i % 2 = j % 2 →
      insertColonsAux 2 i l = insertColonsAux 2 j l := by
  intro l
  induction l with
  | nil => intro i j _ _ _; rfl
  | cons c l ih =>
      intro i j hi hj hij
      show (if 0 < i && i % 2 == 0 then [':', c] else [c]) ++
            insertColonsAux 2 (i + 1) l =
          (if 0 < j && j % 2 == 0 then [':', c] else [c]) ++
            insertColonsAux 2 (j + 1) l
      have hcond : (0 < i && i % 2 == 0) = (0 < j && j % 2 == 0) := by
        rw [decide_eq_true hi, decide_eq_true hj, hij]
      rw [hcond, ih (i + 1) (j + 1) (by omega) (by omega) (by omega)]

theorem insertColonsAux_two_cons (c : Char) (l : List Char) :
    insertColonsAux 2 2 (c :: l) = ':' :: c :: insertColonsAux 2 3 l := by
  rfl

theorem insertColonsAux_three_cons (c : Char) (l : List Char) :
    insertColonsAux 2 3 (c :: l) = c :: insertColonsAux 2 4 l := by
  rfl

theorem matchGroups_insertColonsAux (n : Nat) :
    ∀ (x y : Char) (l : List Char),
      (matchGroups n (x :: y :: insertColonsAux 2 2 l) = true ↔
        isHexChar x = true ∧ isHexChar y = true ∧
          (∀ c ∈ l, isHexChar c = true) ∧ l.length = 2 * n) := by
  induction n with
  | zero =>
      intro x y l
      cases l with
      | nil =>
          show matchGroups 0 [x, y] = true ↔ _
          simp [matchGroups, Bool.and_eq_true]
      | cons c l' =>
          rw [insertColonsAux_two_cons]
          show matchGroups 0 (x :: y :: ':' :: c :: insertColonsAux 2 3 l') =
              true ↔ _
          simp [matchGroups]
  | succ n ih =>
      intro x y l
      cases l with
      | nil =>
          have hfalse : matchGroups (n + 1) [x, y] = false := rfl
          show matchGroups (n + 1) [x, y] = true ↔ _
          rw [hfalse]
          simp
      | cons c l' =>
          cases l' with
          | nil =>
              rw [insertColonsAux_two_cons]
              show matchGroups (n + 1) (x :: y :: ':' :: [c]) = true ↔ _
              have : matchGroups (n + 1) (x :: y :: ':' :: [c]) =
                  (isHexChar x && isHexChar y && (':' == ':') &&
                    matchGroups n [c]) := rfl
              rw [this, matchGroups_single]
              simp
              omega
          | cons d l'' =>
              rw [insertColonsAux_two_cons, insertColonsAux_three_cons,
                insertColonsAux_congr_idx l'' 4 2 (by omega) (by omega)
                  (by omega)]
              have : matchGroups (n + 1)
                  (x :: y :: ':' :: c :: d :: insertColonsAux 2 2 l'') =
                  (isHexChar x && isHexChar y && (':' == ':') &&
                    matchGroups n (c :: d :: insertColonsAux 2 2 l'')) := rfl
              rw [this]
              simp only [Bool.and_eq_true, beq_self_eq_true, and_true]
              rw [and_assoc]
              constructor
              · rintro ⟨hx, hy, hm⟩
                obtain ⟨hc, hd, hall, hlen⟩ := (ih c d l'').mp hm
                refine ⟨hx, hy, ?_, ?_⟩
                · intro a ha
                  simp only [List.mem_cons] at ha
                  rcases ha with rfl | rfl | ha
                  · exact hc
                  · exact hd
                  · exact hall a ha
                · simp only [List.length_cons]
                  omega
              · rintro ⟨hx, hy, hall, hlen⟩
                refine ⟨hx, hy, (ih c d l'').mpr
                  ⟨hall c (by simp), hall d (by simp), ?_, ?_⟩⟩
                · intro a ha
                  exact hall a (by simp [ha])
                · simp only [List.length_cons] at hlen
                  omega

theorem macRegexMatch_insertColons (l : List Char) :
    macRegexMatch (insertColons l 2) = true ↔
      ((∀ c ∈ l, isHexChar c = true) ∧ l.length = 12) := by
  cases l with
  | nil =>
      show matchGroups 5 [] = true ↔ _
      rw [matchGroups_nil]
      simp
  | cons x l' =>
      cases l' with
      | nil =>
          show matchGroups 5 [x] = true ↔ _
          rw [matchGroups_single]
          simp
      | cons y l'' =>
          show matchGroups 5 (x :: y :: insertColonsAux 2 2 l'') = true ↔ _
          rw [matchGroups_insertColonsAux 5 x y l'']
          constructor
          · rintro ⟨hx, hy, hall, hlen⟩
            refine ⟨?_, by simp [hlen]⟩
            intro c hc
            simp only [List.mem_cons] at hc
            rcases hc with rfl | rfl | hc
            · exact hx
            · exact hy
            · exact hall c hc
          · rintro ⟨hall, hlen⟩
            exact ⟨hall x (by simp), hall y (by simp),
              fun c hc => hall c (by simp [hc]), by simp at hlen; omega⟩

theorem hexDigitVal_of_hex (c : Char) (h : isHexChar c = true) :
    ∃ v, hexDigitVal c = some v ∧ v < 16 ∧ upperHexDigit v = goToUpper c := by
  have ht : ((48 ≤ c.toNat ∧ c.toNat ≤ 57) ∨ (97 ≤ c.toNat ∧ c.toNat ≤ 102)) ∨
      (65 ≤ c.toNat ∧ c.toNat ≤ 70) := by
    simpa only [isHexChar, Bool.or_eq_true, Bool.and_eq_true,
      decide_eq_true_eq] using h
  rcases ht with (⟨h1, h2⟩ | ⟨h1, h2⟩) | ⟨h1, h2⟩
  · refine ⟨c.toNat - 48, ?_, by omega, ?_⟩
    · unfold hexDigitVal
      rw [decide_eq_true h1, decide_eq_true h2]
      rfl
    · unfold upperHexDigit goToUpper
      rw [if_pos (by omega)]
      have e1 : 48 + (c.toNat - 48) = c.toNat := by omega
      rw [e1, Char.ofNat_toNat, decide_eq_false (by omega : ¬97 ≤ c.toNat)]
      rfl
  · refine ⟨c.toNat - 97 + 10, ?_, by omega, ?_⟩
    · unfold hexDigitVal
      rw [decide_eq_false (by omega : ¬c.toNat ≤ 57), decide_eq_true h1,
        decide_eq_true h2]
      rw [Bool.and_false]
      rfl
    · unfold upperHexDigit goToUpper
      rw [if_neg (by omega), decide_eq_true h1,
        decide_eq_true (by omega : c.toNat ≤ 122)]
      have e1 : 55 + (c.toNat - 97 + 10) = c.toNat - 32 := by omega
      rw [e1]
      rfl
  · refine ⟨c.toNat - 65 + 10, ?_, by omega, ?_⟩
    · unfold hexDigitVal
      rw [decide_eq_false (by omega : ¬c.toNat ≤ 57),
        decide_eq_false (by omega : ¬97 ≤ c.toNat), decide_eq_true h1,
        decide_eq_true h2]
      rw [Bool.and_false, Bool.false_and]
      rfl
    · unfold upperHexDigit goToUpper
      rw [if_neg (by omega)]
      have e1 : 55 + (c.toNat - 65 + 10) = c.toNat := by omega
      rw [e1, Char.ofNat_toNat, decide_eq_false (by omega : ¬97 ≤ c.toNat)]
      rfl

theorem goToUpper_colon : goToUpper ':' = ':' := rfl

theorem matchGroups_decode (n : Nat) :
    ∀ s, matchGroups n s = true →
      ∃ bs, hexDecode (s.filter (fun c => c != ':')) = some bs ∧
        bs.length = n + 1 ∧ (∀ b ∈ bs, b < 256) ∧
        joinColon (bs.map sprintf02X) = s.map goToUpper := by
  induction n with
  | zero =>
      intro s h
      rcases s with _ | ⟨a, _ | ⟨b, _ | ⟨c, t⟩⟩⟩
      · rw [matchGroups_nil] at h; exact absurd h (by simp)
      · rw [matchGroups_single] at h; exact absurd h (by simp)
      · have h' : (isHexChar a && isHexChar b) = true := h
        simp only [Bool.and_eq_true] at h'
        obtain ⟨ha, hb⟩ := h'
        obtain ⟨x, hva, hxl, hxu⟩ := hexDigitVal_of_hex a ha
        obtain ⟨y, hvb, hyl, hyu⟩ := hexDigitVal_of_hex b hb
        have hba : (a != ':') = true :=
          bne_iff_ne.mpr (hexChar_facts a ha).2.2.2
        have hbb : (b != ':') = true :=
          bne_iff_ne.mpr (hexChar_facts b hb).2.2.2
        refine ⟨[16 * x + y], ?_, rfl, ?_, ?_⟩
        · rw [List.filter_cons, if_pos hba, List.filter_cons, if_pos hbb]
          simp [hexDecode, hva, hvb]
        · intro v hv
          simp only [List.mem_singleton] at hv
          omega
        · have hdiv : (16 * x + y) / 16 = x := by
            rw [Nat.mul_add_div (by omega), Nat.div_eq_of_lt hyl]
            omega
          have hmod : (16 * x + y) % 16 = y := by
            rw [Nat.mul_add_mod, Nat.mod_eq_of_lt hyl]
          simp [joinColon, sprintf02X, hdiv, hmod, hxu, hyu]
      · have h' : matchGroups 0 (a :: b :: c :: t) = false := rfl
        rw [h'] at h; exact absurd h (by simp)
  | succ n ih =>
      intro s h
      rcases s with _ | ⟨a, _ | ⟨b, _ | ⟨c, t⟩⟩⟩
      · rw [matchGroups_nil] at h; exact absurd h (by simp)
      · rw [matchGroups_single] at h; exact absurd h (by simp)
      · have h' : matchGroups (n + 1) [a, b] = false := rfl
        rw [h'] at h; exact absurd h (by simp)
      · have h' : (isHexChar a && isHexChar b && (c == ':') &&
            matchGroups n t) = true := h
        simp only [Bool.and_eq_true] at h'
        obtain ⟨⟨⟨ha, hb⟩, hc⟩, hm⟩ := h'
        have hceq : c = ':' := beq_iff_eq.mp hc
        subst hceq
        obtain ⟨x, hva, hxl, hxu⟩ := hexDigitVal_of_hex a ha
        obtain ⟨y, hvb, hyl, hyu⟩ := hexDigitVal_of_hex b hb
        have hba : (a != ':') = true :=
          bne_iff_ne.mpr (hexChar_facts a ha).2.2.2
        have hbb : (b != ':') = true :=
          bne_iff_ne.mpr (hexChar_facts b hb).2.2.2
        obtain ⟨bs', hdec', hlen', hbound', hjoin'⟩ := ih t hm
        refine ⟨(16 * x + y) :: bs', ?_, by simp [hlen'], ?_, ?_⟩
        · rw [List.filter_cons, if_pos hba, List.filter_cons, if_pos hbb,
            List.filter_cons, if_neg (by simp)]
          cases hbs : bs' with
          | nil => rw [hbs] at hlen'; simp at hlen'
          | cons b0 bs'' =>
              rw [hbs] at hdec'
              have hne : hexDecode (List.filter (fun c => c != ':') t) =
                  some (b0 :: bs'') := hdec'
              simp [hexDecode, hva, hvb, hne, hbs]
        · intro v hv
          simp only [List.mem_cons] at hv
          rcases hv with rfl | hv
          · omega
          · exact hbound' v hv
        · cases hbs : bs' with
          | nil => rw [hbs] at hlen'; simp at hlen'
          | cons b0 bs'' =>
              rw [hbs] at hjoin'
              have hdiv : (16 * x + y) / 16 = x := by
                rw [Nat.mul_add_div (by omega), Nat.div_eq_of_lt hyl]
                omega
              have hmod : (16 * x + y) % 16 = y := by
                rw [Nat.mul_add_mod, Nat.mod_eq_of_lt hyl]
              show sprintf02X (16 * x + y) ++ ':' ::
                  joinColon (List.map sprintf02X (b0 :: bs'')) = _
              rw [hjoin']
              simp [sprintf02X, hdiv, hmod, hxu, hyu, goToUpper_colon]

theorem matchGroups_chars (n : Nat) :
    ∀ s, matchGroups n s = true →
      ∀ c ∈ s, isHexChar c = true ∨ c = ':' := by
  induction n with
  | zero =>
      intro s h
      rcases s with _ | ⟨a, _ | ⟨b, _ | ⟨c, t⟩⟩⟩
      · rw [matchGroups_nil] at h; exact absurd h (by simp)
      · rw [matchGroups_single] at h; exact absurd h (by simp)
      · have h' : (isHexChar a && isHexChar b) = true := h
        simp only [Bool.and_eq_true] at h'
        obtain ⟨ha, hb⟩ := h'
        intro c hc
        simp only [List.mem_cons, List.not_mem_nil, or_false] at hc
        rcases hc with rfl | rfl
        · exact Or.inl ha
        · exact Or.inl hb
      · have h' : matchGroups 0 (a :: b :: c :: t) = false := rfl
        rw [h'] at h; exact absurd h (by simp)
  | succ n ih =>
      intro s h
      rcases s with _ | ⟨a, _ | ⟨b, _ | ⟨c, t⟩⟩⟩
      · rw [matchGroups_nil] at h; exact absurd h (by simp)
      · rw [matchGroups_single] at h; exact absurd h (by simp)
      · have h' : matchGroups (n + 1) [a, b] = false := rfl
        rw [h'] at h; exact absurd h (by simp)
      · have h' : (isHexChar a && isHexChar b && (c == ':') &&
            matchGroups n t) = true := h
        simp only [Bool.and_eq_true] at h'
        obtain ⟨⟨⟨ha, hb⟩, hc⟩, hm⟩ := h'
        have hceq : c = ':' := beq_iff_eq.mp hc
        subst hceq
        intro d hd
        simp only [List.mem_cons] at hd
        rcases hd with rfl | rfl | rfl | hd
        · exact Or.inl ha
        · exact Or.inl hb
        · exact Or.inr rfl
        · exact ih t hm d hd

theorem groupedAux_cons (k : Nat) (sep : Char) (i : Nat) (a : Char)
    (l : List Char) :
    groupedAux k sep i (a :: l) =
      (if 0 < i && i % k == 0 then [sep, a] else [a]) ++
        groupedAux k sep (i + 1) l := rfl

theorem mem_groupedAux (k : Nat) (sep : Char) :
    ∀ (l : List Char) (i : Nat) (c : Char),
      c ∈ groupedAux k sep i l → c = sep ∨ c ∈ l := by
  intro l
  induction l with
  | nil => intro i c hc; simp [groupedAux] at hc
  | cons a l ih =>
      intro i c hc
      rw [groupedAux_cons, List.mem_append] at hc
      rcases hc with hc | hc
      · by_cases hcond : (0 < i && i % k == 0) = true
        · rw [if_pos hcond] at hc
          simp only [List.mem_cons, List.not_mem_nil, or_false] at hc
          rcases hc with rfl | rfl
          · exact Or.inl rfl
          · exact Or.inr (List.mem_cons_self _ _)
        · rw [if_neg hcond] at hc
          simp only [List.mem_singleton] at hc
          subst hc
          exact Or.inr (List.mem_cons_self _ _)
      · rcases ih (i + 1) c hc with h | h
        · exact Or.inl h
        · exact Or.inr (List.mem_cons_of_mem a h)

theorem groupedAux_getLast (k : Nat) (sep : Char) :
    ∀ (l : List Char) (a : Char) (i : Nat),
      (groupedAux k sep i (a :: l)).getLast? = (a :: l).getLast? := by
  intro l
  induction l with
  | nil =>
      intro a i
      rw [groupedAux_cons]
      by_cases hcond : (0 < i && i % k == 0) = true
      · rw [if_pos hcond]; rfl
      · rw [if_neg hcond]; rfl
  | cons b l ih =>
      intro a i
      rw [groupedAux_cons, List.getLast?_append, ih b (i + 1)]
      have hb : (b :: l).getLast? = some ((b :: l).getLast (by simp)) :=
        List.getLast?_eq_getLast (b :: l) (by simp)
      rw [hb]
      rfl

theorem filter_sep_groupedAux (k : Nat) (sep : Char) :
    ∀ (l : List Char), (∀ c ∈ l, (c != sep) = true) →
      ∀ i, (groupedAux k sep i l).filter (fun c => c != sep) = l := by
  intro l
  induction l with
  | nil => intro _ i; rfl
  | cons a l ih =>
      intro h i
      rw [groupedAux_cons, List.filter_append,
        ih (fun d hd => h d (List.mem_cons_of_mem a hd)) (i + 1)]
      by_cases hcond : (0 < i && i % k == 0) = true
      · rw [if_pos hcond, List.filter_cons, if_neg (by simp [bne_self_eq_false]),
          List.filter_cons, if_pos (h a (List.mem_cons_self a l))]
        rfl
      · rw [if_neg hcond, List.filter_cons,
          if_pos (h a (List.mem_cons_self a l))]
        rfl

theorem map_dash_groupedAux :
    ∀ (l : List Char), (∀ c ∈ l, c ≠ '-') →
      ∀ i, (groupedAux 2 '-' i l).map (fun c => if c = '-' then ':' else c) =
        groupedAux 2 ':' i l := by
  intro l
  induction l with
  | nil => intro _ i; rfl
  | cons a l ih =>
      intro h i
      rw [groupedAux_cons, groupedAux_cons, List.map_append,
        ih (fun d hd => h d (List.mem_cons_of_mem a hd)) (i + 1)]
      congr 1
      by_cases hcond : (0 < i && i % 2 == 0) = true
      · rw [if_pos hcond, if_pos hcond]
        simp [h a (List.mem_cons_self a l)]
      · rw [if_neg hcond, if_neg hcond]
        simp [h a (List.mem_cons_self a l)]

theorem insertColonsAux_eq_groupedAux :
    ∀ (l : List Char) (i : Nat),
      insertColonsAux 2 i l = groupedAux 2 ':' i l := by
  intro l
  induction l with
  | nil => intro i; rfl
  | cons a l ih =>
      intro i
      show (if 0 < i && i % 2 == 0 then [':', a] else [a]) ++
          insertColonsAux 2 (i + 1) l = _
      rw [groupedAux_cons, ih (i + 1)]

theorem insertColons_eq_grouped (l : List Char) :
    insertColons l 2 = grouped 2 ':' l :=
  insertColonsAux_eq_groupedAux l 0

theorem parseMAC_def (s : List Char) :
    parseMAC s =
      if macRegexMatch (rewriteSeps (goTrimSpace s)) then
        match hexDecode
            ((rewriteSeps (goTrimSpace s)).filter (fun c => c != ':')) with
        | some bs => .ok bs
        | none => .error (.hexError
            ((rewriteSeps (goTrimSpace s)).filter (fun c => c != ':')))
      else .error (.invalidFormat (rewriteSeps (goTrimSpace s))) := rfl

theorem ValidateMAC_def (s : List Char) :
    ValidateMAC s =
      if macRegexMatch (rewriteSeps (goTrimSpace s)) then .ok ()
      else .error (.invalidFormat (rewriteSeps (goTrimSpace s))) := rfl

theorem parseMAC_wrap (w1 w2 x : List Char)
    (hw1 : ∀ c ∈ w1, goIsSpace c = true) (hw2 : ∀ c ∈ w2, goIsSpace c = true)
    (hx : x ≠ [])
    (hh : ∀ c, x.head? = some c → goIsSpace c = false)
    (hl : ∀ c, x.getLast? = some c → goIsSpace c = false) :
    parseMAC (w1 ++ x ++ w2) = parseMAC x := by
  have hself : goTrimSpace x = x := by
    have := goTrimSpace_wrap [] [] x (by simp) (by simp) hx hh hl
    simpa using this
  rw [parseMAC_def, parseMAC_def,
    goTrimSpace_wrap w1 w2 x hw1 hw2 hx hh hl, hself]

theorem parseMAC_core (ds : List Char) (bs : List Nat) (t : List Char)
    (hlen : ds.length = 12) (hhex : ∀ c ∈ ds, isHexChar c = true)
    (hdec : hexDecode ds = some bs)
    (htrim : goTrimSpace t = t)
    (hrew : rewriteSeps t = grouped 2 ':' ds) :
    parseMAC t = .ok bs := by
  have hm : macRegexMatch (grouped 2 ':' ds) = true := by
    rw [← insertColons_eq_grouped]
    exact (macRegexMatch_insertColons ds).mpr ⟨hhex, hlen⟩
  have hfilter : (grouped 2 ':' ds).filter (fun c => c != ':') = ds :=
    filter_sep_groupedAux 2 ':' ds
      (fun c hc => bne_iff_ne.mpr (hexChar_facts c (hhex c hc)).2.2.2) 0
  rw [parseMAC_def, htrim, hrew, if_pos hm, hfilter, hdec]

theorem dot_mem_grouped4 (ds : List Char) (h : 5 ≤ ds.length) :
    '.' ∈ grouped 4 '.' ds := by
  rcases ds with _ | ⟨a, _ | ⟨b, _ | ⟨c, _ | ⟨d, _ | ⟨e, t⟩⟩⟩⟩⟩ <;>
    simp_all [grouped, groupedAux]

/-- C2: every logical MAC address — given as any 12 hex digits `ds` (any
letter case) decoding to bytes `bs` — parses to the same successful 6-byte
result `bs` in colon form, dash form, and Cisco dot form, with any
surrounding white space, preserving octet order. -/
theorem C2_parse_invariance (ds : List Char) (bs : List Nat)
    (w1 w2 : List Char)
    (hlen : ds.length = 12) (hhex : ∀ c ∈ ds, isHexChar c = true)
    (hdec : hexDecode ds = some bs)
    (hw1 : ∀ c ∈ w1, goIsSpace c = true)
    (hw2 : ∀ c ∈ w2, goIsSpace c = true) :
    parseMAC (w1 ++ grouped 2 ':' ds ++ w2) = .ok bs ∧
    parseMAC (w1 ++ grouped 2 '-' ds ++ w2) = .ok bs ∧
    parseMAC (w1 ++ grouped 4 '.' ds ++ w2) = .ok bs ∧
    bs.length = 6 := by
  obtain ⟨d0, ds', rfl⟩ : ∃ d0 ds', ds = d0 :: ds' := by
    cases ds with
    | nil => simp at hlen
    | cons d0 ds' => exact ⟨d0, ds', rfl⟩
  have hform : ∀ (k : Nat) (sep : Char),
      grouped k sep (d0 :: ds') = d0 :: groupedAux k sep 1 ds' := by
    intro k sep; rfl
  have hne : ∀ (k : Nat) (sep : Char), grouped k sep (d0 :: ds') ≠ [] := by
    intro k sep; rw [hform]; simp
  have hh : ∀ (k : Nat) (sep : Char) (c : Char),
      (grouped k sep (d0 :: ds')).head? = some c → goIsSpace c = false := by
    intro k sep c hc
    rw [hform] at hc
    simp only [List.head?_cons, Option.some.injEq] at hc
    subst hc
    exact (hexChar_facts _ (hhex _ (List.mem_cons_self _ _))).1
  have hl : ∀ (k : Nat) (sep : Char) (c : Char),
      (grouped k sep (d0 :: ds')).getLast? = some c → goIsSpace c = false := by
    intro k sep c hc
    unfold grouped at hc
    rw [groupedAux_getLast k sep ds' d0 0] at hc
    exact (hexChar_facts c (hhex c (List.mem_of_mem_getLast? hc))).1
  have hnotdot : ∀ c ∈ d0 :: ds', c ≠ '.' :=
    fun c hc => (hexChar_facts c (hhex c hc)).2.1
  have hnotdash : ∀ c ∈ d0 :: ds', c ≠ '-' :=
    fun c hc => (hexChar_facts c (hhex c hc)).2.2.1
  refine ⟨?_, ?_, ?_, ?_⟩
  · rw [parseMAC_wrap w1 w2 _ hw1 hw2 (hne 2 ':') (hh 2 ':') (hl 2 ':')]
    apply parseMAC_core (d0 :: ds') bs _ hlen hhex hdec
    · have := goTrimSpace_wrap [] [] _ (by simp) (by simp)
        (hne 2 ':') (hh 2 ':') (hl 2 ':')
      simpa using this
    · apply rewriteSeps_of_plain
      · intro c hc
        rcases mem_groupedAux 2 ':' (d0 :: ds') 0 c hc with rfl | h
        · decide
        · exact hnotdot c h
      · intro c hc
        rcases mem_groupedAux 2 ':' (d0 :: ds') 0 c hc with rfl | h
        · decide
        · exact hnotdash c h
  · rw [parseMAC_wrap w1 w2 _ hw1 hw2 (hne 2 '-') (hh 2 '-') (hl 2 '-')]
    apply parseMAC_core (d0 :: ds') bs _ hlen hhex hdec
    · have := goTrimSpace_wrap [] [] _ (by simp) (by simp)
        (hne 2 '-') (hh 2 '-') (hl 2 '-')
      simpa using this
    · unfold rewriteSeps
      have hcd : (grouped 2 '-' (d0 :: ds')).contains '.' = false := by
        apply contains_eq_false_of_ne
        intro c hc
        rcases mem_groupedAux 2 '-' (d0 :: ds') 0 c hc with rfl | h
        · decide
        · exact hnotdot c h
      rw [hcd]
      simpa using map_dash_groupedAux (d0 :: ds') hnotdash 0
  · rw [parseMAC_wrap w1 w2 _ hw1 hw2 (hne 4 '.') (hh 4 '.') (hl 4 '.')]
    apply parseMAC_core (d0 :: ds') bs _ hlen hhex hdec
    · have := goTrimSpace_wrap [] [] _ (by simp) (by simp)
        (hne 4 '.') (hh 4 '.') (hl 4 '.')
      simpa using this
    · unfold rewriteSeps
      have hcd : (grouped 4 '.' (d0 :: ds')).contains '.' = true :=
        List.elem_eq_true_of_mem (dot_mem_grouped4 (d0 :: ds') (by omega))
      rw [hcd]
      have hfilter : (grouped 4 '.' (d0 :: ds')).filter
          (fun c => c != '.') = d0 :: ds' :=
        filter_sep_groupedAux 4 '.' (d0 :: ds')
          (fun c hc => bne_iff_ne.mpr (hnotdot c hc)) 0
      simp only [if_true]
      rw [hfilter, insertColons_eq_grouped]
  · have hm : macRegexMatch (insertColons (d0 :: ds') 2) = true :=
      (macRegexMatch_insertColons _).mpr ⟨hhex, hlen⟩
    obtain ⟨bs₂, hdec₂, hlen₂, _, _⟩ :=
      matchGroups_decode 5 (insertColons (d0 :: ds') 2) hm
    rw [insertColons_eq_grouped] at hdec₂
    have hfilter : (grouped 2 ':' (d0 :: ds')).filter
        (fun c => c != ':') = d0 :: ds' :=
      filter_sep_groupedAux 2 ':' (d0 :: ds')
        (fun c hc => bne_iff_ne.mpr (hexChar_facts c (hhex c hc)).2.2.2) 0
    rw [hfilter, hdec] at hdec₂
    obtain rfl : bs₂ = bs := by
      injection hdec₂ with h
      exact h.symm
    omega

theorem C2_parse_invariance_witness :
    parseMAC ([' '] ++ grouped 2 ':' ("aAbBcCdDeEfF".toList) ++ []) =
      .ok [0xAA, 0xBB, 0xCC, 0xDD, 0xEE, 0xFF] ∧
    parseMAC ([' '] ++ grouped 2 '-' ("aAbBcCdDeEfF".toList) ++ []) =
      .ok [0xAA, 0xBB, 0xCC, 0xDD, 0xEE, 0xFF] ∧
    parseMAC ([' '] ++ grouped 4 '.' ("aAbBcCdDeEfF".toList) ++ []) =
      .ok [0xAA, 0xBB, 0xCC, 0xDD, 0xEE, 0xFF] := by
  have h := C2_parse_invariance ("aAbBcCdDeEfF".toList)
    [0xAA, 0xBB, 0xCC, 0xDD, 0xEE, 0xFF] [' '] []
    (by rfl) (by decide) (by rfl)
    (by decide) (by simp)
  exact ⟨h.1, h.2.1, h.2.2.1⟩

theorem parseMAC_ok_iff (s : List Char) :
    (∃ bs, parseMAC s = .ok bs) ↔
      macRegexMatch (rewriteSeps (goTrimSpace s)) = true := by
  rw [parseMAC_def]
  cases hm : macRegexMatch (rewriteSeps (goTrimSpace s)) with
  | false =>
      simp only [Bool.false_eq_true, if_false]
      constructor
      · rintro ⟨bs, h⟩; exact absurd h (by simp)
      · intro h; exact absurd h (by simp)
  | true =>
      simp only [if_true]
      constructor
      · intro _; trivial
      · intro _
        obtain ⟨bs, hdec, _, _, _⟩ := matchGroups_decode 5 _ hm
        exact ⟨bs, by rw [hdec]⟩

theorem parseMAC_error_shape (s : List Char) (e : WolError)
    (h : parseMAC s = .error e) :
    e = .invalidFormat (rewriteSeps (goTrimSpace s)) := by
  rw [parseMAC_def] at h
  cases hm : macRegexMatch (rewriteSeps (goTrimSpace s)) with
  | false =>
      rw [hm] at h
      simp only [Bool.false_eq_true, if_false, Except.error.injEq] at h
      exact h.symm
  | true =>
      rw [hm] at h
      simp only [if_true] at h
      obtain ⟨bs, hdec, _, _, _⟩ := matchGroups_decode 5 _ hm
      rw [hdec] at h
      exact absurd h (by simp)

theorem validateMAC_error_shape (s : List Char) (e : WolError)
    (h : ValidateMAC s = .error e) :
    e = .invalidFormat (rewriteSeps (goTrimSpace s)) := by
  rw [ValidateMAC_def] at h
  cases hm : macRegexMatch (rewriteSeps (goTrimSpace s)) with
  | false =>
      rw [hm] at h
      simp only [Bool.false_eq_true, if_false, Except.error.injEq] at h
      exact h.symm
  | true =>
      rw [hm] at h
      exact absurd h (by simp)

theorem parseMAC_ok_length (s : List Char) (bs : List Nat)
    (h : parseMAC s = .ok bs) : bs.length = 6 := by
  rw [parseMAC_def] at h
  cases hm : macRegexMatch (rewriteSeps (goTrimSpace s)) with
  | false =>
      rw [hm] at h
      exact absurd h (by simp)
  | true =>
      rw [hm] at h
      simp only [if_true] at h
      obtain ⟨bs₂, hdec, hlen, _, _⟩ := matchGroups_decode 5 _ hm
      rw [hdec] at h
      simp only [Except.ok.injEq] at h
      subst h
      exact hlen

theorem hex_map_dash (c : Char) :
    isHexChar (if c = '-' then ':' else c) = isHexChar c := by
  by_cases h : c = '-'
  · subst h; decide
  · rw [if_neg h]

theorem beq_colon_map_dash (c : Char) :
    ((if c = '-' then ':' else c) == ':') = (c == ':' || c == '-') := by
  by_cases h : c = '-'
  · subst h; decide
  · rw [if_neg h, beq_eq_false_iff_ne.mpr h, Bool.or_false]

theorem mixedGroups_eq (n : Nat) :
    ∀ t, mixedGroups n t =
      matchGroups n (t.map (fun c => if c = '-' then ':' else c)) := by
  induction n with
  | zero =>
      intro t
      rcases t with _ | ⟨a, _ | ⟨b, _ | ⟨c, t⟩⟩⟩
      · rfl
      · rfl
      · show (isHexChar a && isHexChar b) = matchGroups 0 [_, _]
        show _ = (isHexChar (if a = '-' then ':' else a) &&
          isHexChar (if b = '-' then ':' else b))
        rw [hex_map_dash, hex_map_dash]
      · rfl
  | succ n ih =>
      intro t
      rcases t with _ | ⟨a, _ | ⟨b, _ | ⟨c, t⟩⟩⟩
      · rfl
      · rfl
      · rfl
      · show (isHexChar a && isHexChar b && (c == ':' || c == '-') &&
            mixedGroups n t) = matchGroups (n + 1) (_ :: _ :: _ :: t.map _)
        show _ = (isHexChar (if a = '-' then ':' else a) &&
          isHexChar (if b = '-' then ':' else b) &&
          ((if c = '-' then ':' else c) == ':') &&
          matchGroups n (t.map fun c => if c = '-' then ':' else c))
        rw [hex_map_dash, hex_map_dash, beq_colon_map_dash, ih t]

/-- C3 counterexample: `"AA.BB.CC.DD.EE.FF"` has the wrong group count and
width for the accepted dot form (three 4-hex-digit groups), so the claim
requires failure with InvalidFormat — yet `parseMAC` accepts it. -/
theorem C3_counterexample :
    parseMAC ("AA.BB.CC.DD.EE.FF".toList) =
      .ok [0xAA, 0xBB, 0xCC, 0xDD, 0xEE, 0xFF] := rfl

/-- C3 (amended): after trimming, a dot-containing input is accepted iff its
non-dot characters are exactly 12 hex digits (dot grouping is not checked);
a dot-free input is accepted iff it is six 2-hex-digit groups separated by
`:` or `-`; every other input fails with InvalidFormat — never another
error, and a success is always a full 6-byte address. -/
theorem C3_parse_failure (s : List Char) :
    ((if (goTrimSpace s).contains '.' then
        (∀ c ∈ (goTrimSpace s).filter (fun c => c != '.'),
          isHexChar c = true) ∧
          ((goTrimSpace s).filter (fun c => c != '.')).length = 12
      else mixedGroups 5 (goTrimSpace s) = true) ↔
      ∃ bs, parseMAC s = .ok bs) ∧
    (∀ e, parseMAC s = .error e → ∃ t, e = .invalidFormat t) ∧
    (∀ bs, parseMAC s = .ok bs → bs.length = 6) := by
  refine ⟨?_, fun e h => ⟨_, parseMAC_error_shape s e h⟩,
    fun bs h => parseMAC_ok_length s bs h⟩
  rw [parseMAC_ok_iff]
  unfold rewriteSeps
  cases hd : (goTrimSpace s).contains '.' with
  | true =>
      simp only [hd, if_true]
      rw [macRegexMatch_insertColons]
  | false =>
      simp only [hd, Bool.false_eq_true, if_false]
      rw [mixedGroups_eq 5 (goTrimSpace s)]
      exact Iff.rfl

theorem C3_parse_failure_witness :
    ∃ bs, parseMAC ("AABB.CCDD.EEFF".toList) = .ok bs := by
  apply (C3_parse_failure ("AABB.CCDD.EEFF".toList)).1.mp
  have hc : (goTrimSpace ("AABB.CCDD.EEFF".toList)).contains '.' = true := rfl
  rw [if_pos hc]
  exact ⟨by decide, by rfl⟩

/-- C4 counterexample: for the dash input `"AA-BB-CC-DD-EE-FG"`, the
InvalidFormat error carries the dash→colon rewritten text
`"AA:BB:CC:DD:EE:FG"`, which differs from the original input. -/
theorem C4_counterexample :
    parseMAC ("AA-BB-CC-DD-EE-FG".toList) =
      .error (.invalidFormat ("AA:BB:CC:DD:EE:FG".toList)) ∧
    "AA:BB:CC:DD:EE:FG".toList ≠ "AA-BB-CC-DD-EE-FG".toList :=
  ⟨rfl, by decide⟩

/-- C4 (amended): every `parseMAC` / `ValidateMAC` failure is InvalidFormat
carrying the post-normalization text — the input after trimming and
separator rewriting — not the original input. -/
theorem C4_error_text (s : List Char) (e : WolError) :
    (parseMAC s = .error e ∨ ValidateMAC s = .error e) →
      e = .invalidFormat (rewriteSeps (goTrimSpace s)) := by
  rintro (h | h)
  · exact parseMAC_error_shape s e h
  · exact validateMAC_error_shape s e h

theorem C4_error_text_witness :
    WolError.invalidFormat ("AA:BB:CC:DD:EE:FG".toList) =
      .invalidFormat (rewriteSeps (goTrimSpace ("AA-BB-CC-DD-EE-FG".toList))) :=
  C4_error_text ("AA-BB-CC-DD-EE-FG".toList)
    (.invalidFormat ("AA:BB:CC:DD:EE:FG".toList)) (Or.inl rfl)

/-- C9: the standalone validator accepts exactly the inputs the parser
accepts. -/
theorem C9_validate_iff_parse (s : List Char) :
    ValidateMAC s = .ok () ↔ ∃ bs, parseMAC s = .ok bs := by
  rw [ValidateMAC_def, parseMAC_ok_iff]
  cases hm : macRegexMatch (rewriteSeps (goTrimSpace s)) with
  | false => simp [hm]
  | true => simp [hm]

theorem C9_validate_iff_parse_witness :
    ValidateMAC ("AA:BB:CC:DD:EE:FF".toList) = .ok () :=
  (C9_validate_iff_parse ("AA:BB:CC:DD:EE:FF".toList)).mpr
    ⟨[0xAA, 0xBB, 0xCC, 0xDD, 0xEE, 0xFF], rfl⟩

/-- C8: a valid colon-form input normalizes to its own uppercase; in
general, any successfully parsed input renders as the colon-joined `%02X`
(uppercase hex) image of its parsed bytes, so the output depends only on
the bytes, not on the input notation or case. -/
theorem C8_normalize (m : List Char) :
    (macRegexMatch m = true → NormalizeMAC m = .ok (m.map goToUpper)) ∧
    (∀ bs, parseMAC m = .ok bs →
      NormalizeMAC m = .ok (joinColon (bs.map sprintf02X))) := by
  constructor
  · intro hm
    have hchars := matchGroups_chars 5 m hm
    have hnospace : ∀ c ∈ m, goIsSpace c = false := by
      intro c hc
      rcases hchars c hc with h | rfl
      · exact (hexChar_facts c h).1
      · rfl
    have htrim : goTrimSpace m = m := goTrimSpace_of_no_space m hnospace
    have hrew : rewriteSeps m = m := by
      apply rewriteSeps_of_plain
      · intro c hc
        rcases hchars c hc with h | rfl
        · exact (hexChar_facts c h).2.1
        · decide
      · intro c hc
        rcases hchars c hc with h | rfl
        · exact (hexChar_facts c h).2.2.1
        · decide
    obtain ⟨bs, hdec, hlen, hbound, hjoin⟩ := matchGroups_decode 5 m hm
    have hp : parseMAC m = .ok bs := by
      rw [parseMAC_def, htrim, hrew, if_pos hm, hdec]
    simp only [NormalizeMAC, hp]
    rw [hjoin]
  · intro bs hp
    simp only [NormalizeMAC, hp]

theorem C8_normalize_witness :
    NormalizeMAC ("aa:bb:cc:dd:ee:ff".toList) =
      .ok (("aa:bb:cc:dd:ee:ff".toList).map goToUpper) ∧
    ("aa:bb:cc:dd:ee:ff".toList).map goToUpper =
      "AA:BB:CC:DD:EE:FF".toList :=
  ⟨(C8_normalize ("aa:bb:cc:dd:ee:ff".toList)).1 (by decide), by decide⟩

theorem C1_magic_packet_layout_witness :
    (constructMagicPacket [0xAA, 0xBB, 0xCC, 0xDD, 0xEE, 0xFF]).length = 102 ∧
    (constructMagicPacket [0xAA, 0xBB, 0xCC, 0xDD, 0xEE, 0xFF])[0]! = 0xFF ∧
    (constructMagicPacket [0xAA, 0xBB, 0xCC, 0xDD, 0xEE, 0xFF])[101]! = 0xFF := by
  obtain ⟨h1, h2, h3⟩ :=
    C1_magic_packet_layout [0xAA, 0xBB, 0xCC, 0xDD, 0xEE, 0xFF] rfl
  refine ⟨h1, h2 0 (by omega), ?_⟩
  have := h3 15 5 (by omega) (by omega)
  simpa using this

theorem sendLoopAux_all_ok (sp : Nat → List Nat → Option WolError)
    (packet : List Nat) (h : ∀ i, sp i packet = none) :
    ∀ (n i : Nat), sendLoopAux sp packet i n = (goodTrace n, none) := by
  intro n
  induction n with
  | zero => intro i; rfl
  | succ m ih =>
      intro i
      cases m with
      | zero => simp [sendLoopAux, h i, goodTrace]
      | succ k => simp [sendLoopAux, h i, ih (i + 1), goodTrace]

theorem sendLoopAux_fail (sp : Nat → List Nat → Option WolError)
    (packet : List Nat) :
    ∀ (j n i : Nat) (e : WolError), j < n →
      (∀ t, t < j → sp (i + t) packet = none) →
      sp (i + j) packet = some e →
      sendLoopAux sp packet i n =
        (okSleepTrace j ++ [.attempt (some e)], some e) := by
  intro j
  induction j with
  | zero =>
      intro n i e hn _ hfail
      simp only [Nat.add_zero] at hfail
      cases n with
      | zero => omega
      | succ m =>
          cases m with
          | zero => simp [sendLoopAux, hfail, okSleepTrace]
          | succ k => simp [sendLoopAux, hfail, okSleepTrace]
  | succ j ih =>
      intro n i e hn hok hfail
      have h0 : sp i packet = none := by
        have := hok 0 (by omega)
        simpa using this
      cases n with
      | zero => omega
      | succ m =>
          cases m with
          | zero => omega
          | succ k =>
              have hrec := ih (k + 1) (i + 1) e (by omega)
                (fun t ht => by
                  have h2 := hok (t + 1) (by omega)
                  have e1 : i + (t + 1) = i + 1 + t := by omega
                  rw [e1] at h2
                  exact h2)
                (by
                  have e1 : i + 1 + j = i + (j + 1) := by omega
                  rw [e1]
                  exact hfail)
              simp [sendLoopAux, h0, hrec, okSleepTrace]

/-- C5: for a parsing MAC and positive count `N`, `SendRepeat` performs
exactly `N` sequential send attempts with a 10 ms sleep between consecutive
attempts and none after the last; the first failing attempt aborts the rest
and its error is returned unchanged; and `Send` is exactly
`SendRepeat _ _ 1`. -/
theorem C5_sendRepeat (sp : Nat → List Nat → Option WolError)
    (mac : List Char) (bs : List Nat) (N : Int)
    (hp : parseMAC mac = .ok bs) (hN : 0 < N) :
    ((∀ i, sp i (constructMagicPacket bs) = none) →
      SendRepeat sp mac N = (goodTrace N.toNat, .ok ())) ∧
    (∀ (j : Nat) (e : WolError), (j : Int) < N →
      (∀ t, t < j → sp t (constructMagicPacket bs) = none) →
      sp j (constructMagicPacket bs) = some e →
      SendRepeat sp mac N =
        (okSleepTrace j ++ [SendEvent.attempt (some e)], .error e)) ∧
    Send sp mac = SendRepeat sp mac 1 := by
  refine ⟨?_, ?_, rfl⟩
  · intro hok
    simp only [SendRepeat, hp]
    rw [sendLoopAux_all_ok sp (constructMagicPacket bs) hok N.toNat 0]
  · intro j e hj hok hfail
    simp only [SendRepeat, hp]
    have hjn : j < N.toNat := Int.lt_toNat.mpr hj
    rw [sendLoopAux_fail sp (constructMagicPacket bs) j N.toNat 0 e hjn
      (fun t ht => by simpa using hok t ht) (by simpa using hfail)]

theorem C5_sendRepeat_witness :
    SendRepeat (fun _ _ => none) ("AA:BB:CC:DD:EE:FF".toList) 3 =
      (goodTrace 3, .ok ()) :=
  (C5_sendRepeat (fun _ _ => none) ("AA:BB:CC:DD:EE:FF".toList)
    [0xAA, 0xBB, 0xCC, 0xDD, 0xEE, 0xFF] 3 rfl (by omega)).1 (fun _ => rfl)

/-- C10: for a non-positive count the MAC is still parsed first (errors
propagate), and for a parseable MAC `SendRepeat` returns OK with no send
attempt and no sleep. -/
theorem C10_sendRepeat_nonpositive (sp : Nat → List Nat → Option WolError)
    (mac : List Char) (N : Int) (hN : N ≤ 0) :
    (∀ e, parseMAC mac = .error e → SendRepeat sp mac N = ([], .error e)) ∧
    (∀ bs, parseMAC mac = .ok bs → SendRepeat sp mac N = ([], .ok ())) := by
  have h0 : N.toNat = 0 := Int.toNat_of_nonpos hN
  constructor
  · intro e he
    simp only [SendRepeat, he]
  · intro bs hb
    simp only [SendRepeat, hb, h0]
    rfl

theorem C10_sendRepeat_nonpositive_witness :
    SendRepeat (fun _ _ => none) ("AA:BB:CC:DD:EE:FF".toList) 0 =
      ([], .ok ()) ∧
    SendRepeat (fun _ _ => none) ("nope".toList) (-2) =
      ([], .error (.invalidFormat ("nope".toList))) :=
  ⟨(C10_sendRepeat_nonpositive (fun _ _ => none)
      ("AA:BB:CC:DD:EE:FF".toList) 0 (by omega)).2
    [0xAA, 0xBB, 0xCC, 0xDD, 0xEE, 0xFF] rfl,
   (C10_sendRepeat_nonpositive (fun _ _ => none) ("nope".toList) (-2)
      (by omega)).1 (.invalidFormat ("nope".toList)) rfl⟩

/-- C6: an empty broadcast argument defaults to `255.255.255.255`;
`"not-an-ip"` fails with the invalid-broadcast error; the interface name is
stored as given, without validation. -/
theorem C6_newSender (iface : List Char) :
    NewSender iface [] = .ok ⟨iface, "255.255.255.255".toList⟩ ∧
    NewSender iface ("not-an-ip".toList) =
      .error (.invalidBroadcast ("not-an-ip".toList)) :=
  ⟨rfl, rfl⟩

theorem find?_first {α : Type} (p : α → Bool) :
    ∀ (l : List α) (k : Nat) (hk : k < l.length),
      p l[k] = true → (∀ b ∈ l.take k, p b = false) →
      l.find? p = some l[k] := by
  intro l
  induction l with
  | nil => intro k hk; simp at hk
  | cons a l ih =>
      intro k hk hp hprev
      cases k with
      | zero =>
          simp only [List.getElem_cons_zero] at hp
          rw [List.find?_cons_of_pos l hp]
          rfl
      | succ k =>
          have ha : p a = false := by
            apply hprev
            rw [List.take_succ_cons]
            exact List.mem_cons_self _ _
          rw [List.find?_cons_of_neg l (by simp [ha]),
            List.getElem_cons_succ]
          exact ih k (by simpa using hk) (by simpa using hp)
            (fun b hb => hprev b (by
              rw [List.take_succ_cons]
              exact List.mem_cons_of_mem a hb))

/-- C7: with a named interface, `sendPacket` binds to the first usable
(IPNet, IPv4, non-loopback) address of that interface; with none usable it
fails with NoUsableAddress naming the interface and writes no datagram, and
a `SendRepeat` built on it stops after that first failing attempt; with no
interface name it binds to the IPv4 wildcard `0.0.0.0`. -/
theorem C7_sendPacket_binding (w : WOLSender) (env : NetEnv)
    (packet : List Nat) :
    (∀ addrs, w.iface ≠ [] → env.ifaces w.iface = some addrs →
      ((∀ a ∈ addrs, usableAddr a = false) →
        sendPacket w env packet = .error (.noUsableAddress w.iface)) ∧
      (∀ (k : Nat) (hk : k < addrs.length), usableAddr addrs[k] = true →
        (∀ b ∈ addrs.take k, usableAddr b = false) →
        sendPacket w env packet =
          .ok ⟨addrs[k].ip, w.broadcast, 9, packet⟩)) ∧
    (w.iface = [] → sendPacket w env packet =
      .ok ⟨"0.0.0.0".toList, w.broadcast, 9, packet⟩) ∧
    (∀ (mac : List Char) (bs : List Nat) (N : Int) (e : WolError),
      parseMAC mac = .ok bs → 0 < N →
      sendPacket w env (constructMagicPacket bs) = .error e →
      SendRepeat (spOf w env) mac N =
        ([SendEvent.attempt (some e)], .error e)) := by
  refine ⟨?_, ?_, ?_⟩
  · intro addrs hni henv
    constructor
    · intro hnone
      simp only [sendPacket, if_pos hni, henv]
      rw [List.find?_eq_none.mpr (fun a ha => by simp [hnone a ha])]
    · intro k hk hp hprev
      simp only [sendPacket, if_pos hni, henv]
      rw [find?_first usableAddr addrs k hk hp hprev]
  · intro hnil
    simp only [sendPacket, hnil]
    rfl
  · intro mac bs N e hp hN hfail
    simp only [SendRepeat, hp]
    have hjn : 0 < N.toNat := by omega
    have hsp : spOf w env 0 (constructMagicPacket bs) = some e := by
      simp [spOf, hfail]
    rw [sendLoopAux_fail (spOf w env) (constructMagicPacket bs) 0 N.toNat 0 e
      hjn (fun t ht => by omega) (by simpa using hsp)]
    rfl

theorem C7_sendPacket_binding_witness :
    sendPacket ⟨"eth0".toList, "255.255.255.255".toList⟩
      ⟨fun n => if n = "eth0".toList
        then some [⟨true, true, true, "127.0.0.1".toList⟩] else none⟩
      [1, 2, 3] = .error (.noUsableAddress ("eth0".toList)) := by
  have h := (C7_sendPacket_binding
    ⟨"eth0".toList, "255.255.255.255".toList⟩
    ⟨fun n => if n = "eth0".toList
      then some [⟨true, true, true, "127.0.0.1".toList⟩] else none⟩
    [1, 2, 3]).1 [⟨true, true, true, "127.0.0.1".toList⟩]
    (by decide) rfl
  exact h.1 (by decide)

end Wolgate
